import Mathlib

set_option maxHeartbeats 1000000
set_option maxRecDepth 8000

/-!
Shallow embedding of the CAT-tool core from `src/app.py`.

Strings are modelled as `List Char` internally (with `String` wrappers keeping
the source names).  Python's regular expressions are embedded by the explicit
leftmost / non-overlapping scanners they denote for the fixed patterns used in
the program:

* `TAG_PATTERN = (<[^>]+>|\x7b[^\x7d]+\x7d|\[[^\]]+\])` — at each position, an
  opening bracket followed by at least one character different from the closing
  bracket and then the first occurrence of the closing bracket matches; the
  match ends at that first closing bracket (the greedy `+` backtracks to it).
* the paragraph splitter `\n\s*\n` — a newline, then the greedy whitespace run
  backtracks to the last newline inside that run.
* the sentence splitter `(?<=[.!?])\s+` — a whitespace run whose preceding
  character is `.`, `!` or `?`.

The scanners consume at least one character per step, so they are written by
structural recursion on a fuel initialised to the input length; the
out-of-fuel fallbacks are unreachable for that fuel.

Python `dict`s (`translations`, `confirmed` in `st.session_state`) are modelled
as insertion-ordered association lists: updating an existing key keeps its
position, a fresh key is appended at the end, and no operation in the program
ever deletes a key.  Fallible code (`IndexError`) is modelled with `Option`.
-/

/-- Whitespace characters recognised by Python's `str.strip()` and `\s`
(ASCII range, which is all the program's own tags and separators use). -/
def isPySpace (c : Char) : Bool :=
  c = ' ' || c = '\t' || c = '\n' || c = '\r' || c = '\x0b' || c = '\x0c'

/-- Drop trailing characters satisfying `p` (Python `rstrip`). -/
def pyDropTrailing (p : Char → Bool) (cs : List Char) : List Char :=
  (cs.reverse.dropWhile p).reverse

/-- Python `str.strip()` with no argument: remove leading and trailing
whitespace. -/
def pyStrip (cs : List Char) : List Char :=
  pyDropTrailing isPySpace (cs.dropWhile isPySpace)

/-- Sentence-terminal punctuation of the lookbehind `(?<=[.!?])`. -/
def sentPunct (c : Char) : Bool := c = '.' || c = '!' || c = '?'

/-- Whether the lookbehind character (if any) is sentence punctuation. -/
def prevPunct : Option Char → Bool
  | some p => sentPunct p
  | none => false

/-- Index of the last occurrence of `c` in a list, if any. -/
def lastIdxOf (c : Char) : List Char → Option Nat
  | [] => none
  | x :: xs =>
    match lastIdxOf c xs with
    | some j => some (j + 1)
    | none => if x = c then some 0 else none

/-- Paragraph splitter: `re.split` on two newlines around optional whitespace,
as an explicit scanner.  At a newline, the greedy whitespace star backtracks so
the match ends at the last newline of the following whitespace run; if that run
contains no newline there is no match at this position. -/
def paraGo : Nat → List Char → List Char → List (List Char)
  | _, acc, [] => [acc.reverse]
  | 0, acc, cs => [acc.reverse ++ cs]
  | fuel + 1, acc, x :: xs =>
    if x = '\n' then
      match lastIdxOf '\n' (xs.takeWhile isPySpace) with
      | some j => acc.reverse :: paraGo fuel [] (xs.drop (j + 1))
      | none => paraGo fuel (x :: acc) xs
    else paraGo fuel (x :: acc) xs

/-- Paragraph splitter at its canonical fuel. -/
def paraSplit (cs : List Char) : List (List Char) := paraGo cs.length [] cs

/-- Sentence splitter: `re.split` on a whitespace run preceded by sentence
punctuation, as an explicit scanner.  `prev` is the character before the
current position.  After a whitespace run is consumed, the character before the
next position is whitespace — never punctuation — so the recursive call may
forget it. -/
def sentGo : Nat → Option Char → List Char → List Char → List (List Char)
  | _, _, acc, [] => [acc.reverse]
  | 0, _, acc, cs => [acc.reverse ++ cs]
  | fuel + 1, prev, acc, x :: xs =>
    if isPySpace x && prevPunct prev then
      acc.reverse :: sentGo fuel none [] (xs.dropWhile isPySpace)
    else sentGo fuel (some x) (x :: acc) xs

/-- Sentence splitter at its canonical fuel. -/
def sentSplit (cs : List Char) : List (List Char) := sentGo cs.length none [] cs

/-- Inner loop of `segment_text`: split a paragraph into trimmed, non-empty
sentence candidates. -/
def sentencesOf (para : List Char) : List (List Char) :=
  ((sentSplit (pyStrip para)).map pyStrip).filter (fun l => !l.isEmpty)

/-- `segment_text` from `src/app.py`: strip, split into paragraphs, split each
paragraph into sentences, keep the trimmed non-empty candidates in order. -/
def segment_text (s : String) : List String :=
  (((paraSplit (pyStrip s.data)).map sentencesOf).flatten).map (fun l => String.mk l)

/-- Closing bracket of each alternative of `TAG_PATTERN`, keyed by its opening
bracket. -/
def closeOf (c : Char) : Option Char :=
  if c = '<' then some '>'
  else if c = '{' then some '}'
  else if c = '[' then some ']'
  else none

/-- Index of the first occurrence of `c`, if any. -/
def pyFindIdx (c : Char) : List Char → Option Nat
  | [] => none
  | x :: xs => if x = c then some 0 else (pyFindIdx c xs).map (· + 1)

/-- Try to match one alternative of `TAG_PATTERN` at the head of the input:
an opening bracket, at least one character, then the first matching closing
bracket.  Returns the token and the rest of the input. -/
def tryTag : List Char → Option (List Char × List Char)
  | [] => none
  | x :: xs =>
    match closeOf x with
    | none => none
    | some cl =>
      match pyFindIdx cl xs with
      | none => none
      | some j =>
        if 1 ≤ j then some (x :: (xs.take j ++ [cl]), xs.drop (j + 1)) else none

theorem tryTag_rest_length {cs tag rest : List Char}
    (h : tryTag cs = some (tag, rest)) : rest.length < cs.length := by
  cases cs with
  | nil => simp [tryTag] at h
  | cons x xs =>
    simp only [tryTag] at h
    split at h
    · exact absurd h (by simp)
    · split at h
      · exact absurd h (by simp)
      · split at h
        · rename_i j _ _
          have : rest = xs.drop (j + 1) := (Prod.mk.injEq _ _ _ _ ▸ Option.some.inj h).2.symm
          subst this
          simp [List.length_drop]
          omega
        · exact absurd h (by simp)

/-- The scanner behind `re.split(TAG_PATTERN, ·)` / `re.findall`: produce the
alternating parts, flagged `true` for captured tag tokens and `false` for the
(possibly empty) plain-text runs between them. -/
def tokenizeGo : Nat → List Char → List Char → List (Bool × List Char)
  | _, acc, [] => [(false, acc.reverse)]
  | 0, acc, cs => [(false, acc.reverse ++ cs)]
  | fuel + 1, acc, x :: xs =>
    match tryTag (x :: xs) with
    | some (tag, rest) => (false, acc.reverse) :: (true, tag) :: tokenizeGo fuel [] rest
    | none => tokenizeGo fuel (x :: acc) xs

/-- The parts list produced by `re.split(TAG_PATTERN, text)`. -/
def splitParts (cs : List Char) : List (List Char) :=
  (tokenizeGo cs.length [] cs).map (fun p => p.2)

/-- The `tokenize` companion of the spec: ordered `(isTag, value)` pairs. -/
def tokenize (s : String) : List (Bool × String) :=
  (tokenizeGo s.data.length [] s.data).map (fun p => (p.1, String.mk p.2))

/-- `extract_tags` from `src/app.py`: `re.findall(TAG_PATTERN, text)`, i.e. the
captured tag tokens in left-to-right order. -/
def extract_tags (s : String) : List String :=
  ((tokenizeGo s.data.length [] s.data).filter (fun p => p.1)).map (fun p => String.mk p.2)

/-- `re.fullmatch(TAG_PATTERN, p)` for one alternative: opening bracket, a
non-empty run of characters different from the closing bracket, then the
closing bracket at the very end. -/
def shapeMatch (o c : Char) : List Char → Bool
  | [] => false
  | x :: xs =>
    x = o && decide (2 ≤ xs.length) && decide (xs.getLast? = some c) &&
      xs.dropLast.all (fun ch => !(ch = c))

/-- `re.fullmatch(TAG_PATTERN, p)` — the test both renderers apply to each
part. -/
def isTagToken (p : List Char) : Bool :=
  shapeMatch '<' '>' p || shapeMatch '{' '}' p || shapeMatch '[' ']' p

/-- `html.escape` on a single character (quotes included, Python default). -/
def escapeChar (c : Char) : List Char :=
  if c = '&' then "&amp;".data
  else if c = '<' then "&lt;".data
  else if c = '>' then "&gt;".data
  else if c = '"' then "&quot;".data
  else if c = '\'' then "&#x27;".data
  else [c]

/-- `html_lib.escape` on a string. -/
def escapeList (cs : List Char) : List Char := (cs.map escapeChar).flatten

/-- Opening of the inert chip markup used by both renderers. -/
def chipOpen : List Char := "<span class=\"tag-chip\">".data

/-- Closing of the inert chip markup. -/
def chipClose : List Char := "</span>".data

/-- The chip markup around one escaped token. -/
def chipWrap (p : List Char) : List Char := chipOpen ++ escapeList p ++ chipClose

/-- `RENDER_TAGS` from `src/app.py`. -/
def RENDER_TAGS : List String := ["b", "i", "u", "br", "br/", "strong", "em"]

/-- The character set of `p.strip` with argument the three bracket/slash
characters. -/
def isStripChar (c : Char) : Bool := c = '<' || c = '>' || c = '/'

/-- `p.strip` with that three-character argument. -/
def stripAngles (p : List Char) : List Char :=
  pyDropTrailing isStripChar (p.dropWhile isStripChar)

/-- The tag-name heuristic of `render_translation_html`: strip the bracket and
slash characters from both ends, take the first whitespace-delimited word,
lowercase it, strip trailing slashes.  `none` models the `IndexError` raised by
indexing `[0]` when `split()` returns no word. -/
def deriveName (p : List Char) : Option (List Char) :=
  match (stripAngles p).dropWhile isPySpace with
  | [] => none
  | c :: cs =>
    some (pyDropTrailing (fun ch => ch = '/')
      (((c :: cs).takeWhile (fun ch => !isPySpace ch)).map Char.toLower))

/-- Body of `render_translation_html`'s loop for one part, parameterised by the
whitelist. -/
def renderPart (wl : List String) (p : List Char) : Option (List Char) :=
  if isTagToken p then
    match deriveName p with
    | none => none
    | some inner => some (if String.mk inner ∈ wl then p else chipWrap p)
  else some (escapeList p)

/-- `render_translation_html`'s loop over all parts; `none` as soon as one part
raises. -/
def renderParts (wl : List String) : List (List Char) → Option (List Char)
  | [] => some []
  | p :: rest =>
    match renderPart wl p with
    | none => none
    | some h =>
      match renderParts wl rest with
      | none => none
      | some t => some (h ++ t)

/-- `render_translation_html` with an explicit whitelist. -/
def renderWith (wl : List String) (s : String) : Option String :=
  (renderParts wl (splitParts s.data)).map (fun l => String.mk l)

/-- `render_translation_html` from `src/app.py`. -/
def render_translation_html (s : String) : Option String :=
  renderWith RENDER_TAGS s

/-- Body of `highlight_tags_html`'s loop over all parts. -/
def highlightParts : List (List Char) → List Char
  | [] => []
  | p :: rest => (if isTagToken p then chipWrap p else escapeList p) ++ highlightParts rest

/-- `highlight_tags_html` from `src/app.py`. -/
def highlight_tags_html (s : String) : String :=
  String.mk (highlightParts (splitParts s.data))

/-- The loop of `check_missing_tags`: consume one equal translation tag per
source tag (`list.remove` removes the first occurrence), otherwise record the
source tag as missing. -/
def missingFrom : List String → List String → List String
  | [], _ => []
  | t :: rest, tgt =>
    if t ∈ tgt then missingFrom rest (tgt.erase t) else t :: missingFrom rest tgt

/-- `check_missing_tags` from `src/app.py`. -/
def check_missing_tags (source translation : String) : List String :=
  missingFrom (extract_tags source) (extract_tags translation)

/-- Python `sep.join(parts)`. -/
def joinSep (sep : String) : List String → String
  | [] => ""
  | [x] => x
  | x :: y :: xs => x ++ sep ++ joinSep sep (y :: xs)

/-- Lookup in an insertion-ordered association list (Python `d[k]` /
`k in d`). -/
def dictGet? {α : Type} : List (Nat × α) → Nat → Option α
  | [], _ => none
  | (k', v) :: rest, k => if k = k' then some v else dictGet? rest k

/-- Python `d.get(k, dflt)`. -/
def dictGetD {α : Type} (d : List (Nat × α)) (k : Nat) (dflt : α) : α :=
  (dictGet? d k).getD dflt

/-- Python `d[k] = v`: update in place, or append a fresh key. -/
def dictInsert {α : Type} : List (Nat × α) → Nat → α → List (Nat × α)
  | [], k, v => [(k, v)]
  | (k', v') :: rest, k, v =>
    if k = k' then (k', v) :: rest else (k', v') :: dictInsert rest k v

/-- Python `d.setdefault(k, v)` (the resulting dict). -/
def dictSetdefault {α : Type} (d : List (Nat × α)) (k : Nat) (v : α) : List (Nat × α) :=
  if (dictGet? d k).isSome then d else d ++ [(k, v)]

/-- The load loop `for i in range(n): d.setdefault(i, v)`. -/
def setdefaultRange {α : Type} (d : List (Nat × α)) (n : Nat) (v : α) : List (Nat × α) :=
  (List.range n).foldl (fun acc i => dictSetdefault acc i v) d

/-- `build_download_content` from `src/app.py`: join the translations of the
indices `0 .. len(segments) - 1` (defaulting to the empty string) with a blank
line. -/
def build_download_content (segments : List String) (translations : List (Nat × String)) : String :=
  joinSep "\n\n" ((List.range segments.length).map (fun i => dictGetD translations i ""))

/-- The mutable session state of the app: `st.session_state.segments`,
`.translations`, `.confirmed`, `.active_seg`. -/
structure AppState where
  segments : List String
  translations : List (Nat × String)
  confirmed : List (Nat × Bool)
  active_seg : Nat
deriving Repr, DecidableEq

/-- The fresh session: empty document, empty dicts, active segment 0. -/
def initState : AppState := ⟨[], [], [], 0⟩

/-- The load-and-segment button handler (`src/app.py` lines 415–423): on a
non-blank input, re-segment, reset the active segment, and `setdefault` each
index of the new document in the persistent `translations` / `confirmed`
dicts; a blank input only warns and changes nothing. -/
def loadSource (raw : String) (st : AppState) : AppState :=
  if pyStrip raw.data ≠ [] then
    let segs := segment_text raw
    { segments := segs
      active_seg := 0
      translations := setdefaultRange st.translations segs.length ""
      confirmed := setdefaultRange st.confirmed segs.length false }
  else st

/-- The per-segment editor write-back (`src/app.py` lines 621–635): the
`st.text_area` widget is rendered with `disabled=is_confirmed`, so for a
confirmed segment it returns the stored value unchanged; otherwise it returns
the edited text.  `translations[i] = new_val` then stores that value, and the
`on_change` callback makes an actually-edited segment active. -/
def setTranslation (i : Nat) (text : String) (st : AppState) : AppState :=
  let isConf := dictGetD st.confirmed i false
  let newVal := if isConf then dictGetD st.translations i "" else text
  { st with
    translations := dictInsert st.translations i newVal
    active_seg := if newVal ≠ dictGetD st.translations i "" then i else st.active_seg }

/-- The `insert_tag` toolbar action (`src/app.py` lines 531–536): append
`open_tag + close_tag` to the active segment's translation.  No confirmation
check is performed. -/
def insertTag (openTag closeTag : String) (st : AppState) : AppState :=
  let cur := dictGetD st.translations st.active_seg ""
  { st with translations := dictInsert st.translations st.active_seg (cur ++ openTag ++ closeTag) }

/-- The `copy_source` toolbar action (`src/app.py` lines 538–544): append all
tags of the active segment's source.  `segments[active]` raises `IndexError`
out of range (modelled by `none`); no confirmation check is performed. -/
def copySource (st : AppState) : Option AppState :=
  match st.segments.get? st.active_seg with
  | none => none
  | some seg =>
    let cur := dictGetD st.translations st.active_seg ""
    some { st with
      translations := dictInsert st.translations st.active_seg (cur ++ String.join (extract_tags seg)) }

/-- The `confirm_active` toolbar action (`src/app.py` lines 546–551): if the
active segment's translation is non-blank, flip its confirmed flag; otherwise
do nothing. -/
def confirmActive (st : AppState) : AppState :=
  let val := dictGetD st.translations st.active_seg ""
  if pyStrip val.data ≠ [] then
    { st with
      confirmed :=
        dictInsert st.confirmed st.active_seg (!(dictGetD st.confirmed st.active_seg false)) }
  else st

/-- The `confirm_all` toolbar action (`src/app.py` lines 553–558): set
`confirmed[i] = True` for every index with a non-blank translation. -/
def confirmAll (st : AppState) : AppState :=
  { st with
    confirmed :=
      (List.range st.segments.length).foldl
        (fun acc i =>
          if pyStrip (dictGetD st.translations i "").data ≠ [] then dictInsert acc i true else acc)
        st.confirmed }

/-- The segment-selector button (`src/app.py` lines 604–609). -/
def setActive (i : Nat) (st : AppState) : AppState :=
  { st with active_seg := i }

/-- The export content of the download button (`src/app.py` line 471). -/
def exportContent (st : AppState) : String :=
  build_download_content st.segments st.translations

example : segment_text "A. B?\n\nC!" = ["A.", "B?", "C!"] := by decide
example : extract_tags "Hello <b>x</b> [x]" = ["<b>", "</b>", "[x]"] := by decide
example : check_missing_tags "<b>x</b>" "<b>x</b><b>y</b>" = [] := by decide
example : render_translation_html "</>" = none := by decide
example : render_translation_html "<b>hi</b>" = some "<b>hi</b>" := by decide
example : highlight_tags_html "a<b>" = "a<span class=\"tag-chip\">&lt;b&gt;</span>" := by decide

/-! ### Association-list dictionary lemmas -/

theorem dictGet?_insert_self {α : Type} (d : List (Nat × α)) (k : Nat) (v : α) :
    dictGet? (dictInsert d k v) k = some v := by
  induction d with
  | nil => simp [dictInsert, dictGet?]
  | cons kv rest ih =>
    obtain ⟨k', v'⟩ := kv
    by_cases h : k = k'
    · simp [dictInsert, h, dictGet?]
    · simp [dictInsert, h, dictGet?, ih]

theorem dictGet?_insert_ne {α : Type} (d : List (Nat × α)) (k j : Nat) (v : α) (h : j ≠ k) :
    dictGet? (dictInsert d k v) j = dictGet? d j := by
  induction d with
  | nil => simp [dictInsert, dictGet?, h]
  | cons kv rest ih =>
    obtain ⟨k', v'⟩ := kv
    by_cases hk : k = k'
    · subst hk
      simp [dictInsert, dictGet?, h]
    · by_cases hj : j = k'
      · simp [dictInsert, hk, dictGet?, hj]
      · simp [dictInsert, hk, dictGet?, hj, ih]

theorem dictInsert_same {α : Type} (d : List (Nat × α)) (k : Nat) (v : α)
    (h : dictGet? d k = some v) : dictInsert d k v = d := by
  induction d with
  | nil => simp [dictGet?] at h
  | cons kv rest ih =>
    obtain ⟨k', v'⟩ := kv
    by_cases hk : k = k'
    · have : v' = v := by simpa [dictGet?, hk] using h
      simp [dictInsert, hk, this]
    · have := ih (by simpa [dictGet?, hk] using h)
      simp [dictInsert, hk, this]

theorem dictGet?_append {α : Type} (d e : List (Nat × α)) (j : Nat) :
    dictGet? (d ++ e) j =
      if (dictGet? d j).isSome then dictGet? d j else dictGet? e j := by
  induction d with
  | nil => simp [dictGet?]
  | cons kv rest ih =>
    obtain ⟨k', v'⟩ := kv
    by_cases hj : j = k'
    · simp [dictGet?, hj]
    · simp [dictGet?, hj, ih]

theorem dictGet?_setdefault {α : Type} (d : List (Nat × α)) (k j : Nat) (v : α) :
    dictGet? (dictSetdefault d k v) j =
      if (dictGet? d j).isSome then dictGet? d j else if j = k then some v else none := by
  unfold dictSetdefault
  by_cases hk : (dictGet? d k).isSome
  · rw [if_pos hk]
    by_cases hj : (dictGet? d j).isSome
    · simp [hj]
    · rw [if_neg hj]
      by_cases hjk : j = k
      · subst hjk; exact absurd hk hj
      · simp [hjk]
        exact Option.not_isSome_iff_eq_none.mp hj
  · rw [if_neg hk, dictGet?_append]
    by_cases hj : (dictGet? d j).isSome
    · simp [hj]
    · simp [hj, dictGet?]

theorem dictGet?_setdefaultRange {α : Type} (d : List (Nat × α)) (v : α) :
    ∀ (n : Nat) (j : Nat),
      dictGet? (setdefaultRange d n v) j =
        if (dictGet? d j).isSome then dictGet? d j else if j < n then some v else none := by
  intro n
  induction n with
  | zero =>
    intro j
    by_cases hj : (dictGet? d j).isSome
    · simp [setdefaultRange, hj]
    · simp [setdefaultRange, hj]
      exact Option.not_isSome_iff_eq_none.mp hj
  | succ n ih =>
    intro j
    have hstep : setdefaultRange d (n + 1) v = dictSetdefault (setdefaultRange d n v) n v := by
      simp [setdefaultRange, List.range_succ]
    rw [hstep, dictGet?_setdefault, ih]
    by_cases hj : (dictGet? d j).isSome
    · simp [hj]
    · rw [if_neg hj, if_neg hj]
      by_cases hlt : j < n
      · have : j < n + 1 := by omega
        simp [hlt, this]
      · by_cases hje : j = n
        · subst hje
          simp [hlt]
        · have : ¬ j < n + 1 := by omega
          simp [hlt, hje, this]

/-! ### Claim C9 — export assembler -/

/-- Claim C9: `build_download_content` joins the segments' translations in index
order with exactly two line breaks between consecutive segments, including empty
translations and independently of the confirmed flags (and of the active
segment); over translations `["A", "", "C"]` it yields `"A\n\n\n\nC"`. -/
theorem C9_assemble_join :
    build_download_content ["a.", "b.", "c."] [(0, "A"), (1, ""), (2, "C")] = "A\n\n\n\nC"
    ∧ (∀ (st : AppState) (conf : List (Nat × Bool)) (act : Nat),
        exportContent ⟨st.segments, st.translations, conf, act⟩ = exportContent st)
    ∧ (∀ (segments : List String) (translations : List (Nat × String)),
        build_download_content segments translations =
          joinSep "\n\n" ((List.range segments.length).map (fun i => dictGetD translations i ""))) := by
  refine ⟨by decide, fun st conf act => rfl, fun segments translations => rfl⟩

/-! ### Claim C3 — totality of the text operations -/

/-- Claim C3 (code bug): the spec promises every core text operation returns on
any input, but `render_translation_html` evaluates to `none` — the embedded
`IndexError` of `p.strip("<>/").split()[0]` — on the tag token `</>`, while
the sibling operations handle the very same input. -/
theorem C3_render_crashes_on_empty_name :
    render_translation_html "</>" = none
    ∧ highlight_tags_html "</>" = "<span class=\"tag-chip\">&lt;/&gt;</span>"
    ∧ extract_tags "</>" = ["</>"]
    ∧ check_missing_tags "</>" "" = ["</>"]
    ∧ render_translation_html "< >" = none := by
  decide

/-! ### Claim C6 — tokenize round-trip -/

theorem pyFindIdx_split (c : Char) :
    ∀ (l : List Char) (j : Nat), pyFindIdx c l = some j →
      l.take j ++ c :: l.drop (j + 1) = l := by
  intro l
  induction l with
  | nil => intro j h; simp [pyFindIdx] at h
  | cons x xs ih =>
    intro j h
    simp only [pyFindIdx] at h
    by_cases hx : x = c
    · rw [if_pos hx] at h
      obtain rfl : (0 : Nat) = j := Option.some.inj h
      simp [hx]
    · rw [if_neg hx] at h
      obtain ⟨j', hj', rfl⟩ := Option.map_eq_some'.mp h
      simpa using ih j' hj'

theorem tryTag_append {cs tag rest : List Char}
    (h : tryTag cs = some (tag, rest)) : tag ++ rest = cs := by
  cases cs with
  | nil => simp [tryTag] at h
  | cons x xs =>
    cases hco : closeOf x with
    | none => simp [tryTag, hco] at h
    | some cl =>
      cases hfi : pyFindIdx cl xs with
      | none => simp [tryTag, hco, hfi] at h
      | some j =>
        by_cases hj : 1 ≤ j
        · simp only [tryTag, hco, hfi, if_pos hj] at h
          obtain ⟨htag, hrest⟩ := Prod.mk.injEq _ _ _ _ ▸ Option.some.inj h
          subst htag hrest
          simpa using pyFindIdx_split cl xs j hfi
        · simp [tryTag, hco, hfi, hj] at h

theorem tokenizeGo_flatten :
    ∀ (fuel : Nat) (acc cs : List Char),
      ((tokenizeGo fuel acc cs).map (fun p => p.2)).flatten = acc.reverse ++ cs := by
  intro fuel
  induction fuel with
  | zero => intro acc cs; cases cs <;> simp [tokenizeGo]
  | succ fuel ih =>
    intro acc cs
    cases cs with
    | nil => simp [tokenizeGo]
    | cons x xs =>
      simp only [tokenizeGo]
      split
      · rename_i tag rest htt
        have hlift := tryTag_append htt
        simp [ih [] rest, ← hlift]
      · rename_i htt
        simpa using ih (x :: acc) xs

theorem splitParts_flatten (cs : List Char) : (splitParts cs).flatten = cs := by
  simpa [splitParts] using tokenizeGo_flatten cs.length [] cs

theorem filter_map_flag (l : List (Bool × List Char)) :
    ((l.map (fun p => (p.1, String.mk p.2))).filter (fun p => p.1)).map (fun p => p.2) =
      (l.filter (fun p => p.1)).map (fun p => String.mk p.2) := by
  induction l with
  | nil => rfl
  | cons p rest ih =>
    obtain ⟨b, v⟩ := p
    cases b <;> simp [ih]

/-- Claim C6: the tokenizer behind `highlight_tags_html` and
`render_translation_html` splits the text into alternating plain-text runs and
tag tokens in original order, and concatenating all token values reconstructs
the exact original string; its `true`-flagged values are exactly
`extract_tags`. -/
theorem C6_tokenize_roundtrip (s : String) :
    String.mk (splitParts s.data).flatten = s
    ∧ (tokenize s).map (fun p => p.2) = (splitParts s.data).map (fun l => String.mk l)
    ∧ ((tokenize s).filter (fun p => p.1)).map (fun p => p.2) = extract_tags s := by
  refine ⟨?_, ?_, ?_⟩
  · rw [splitParts_flatten]
  · simp [tokenize, splitParts, List.map_map]
  · simpa [tokenize, extract_tags] using filter_map_flag (tokenizeGo s.data.length [] s.data)

/-! ### Claim C4 — missing-tag multiset diff -/

theorem missingFrom_count (x : String) :
    ∀ (src tgt : List String),
      (missingFrom src tgt).count x = src.count x - tgt.count x := by
  intro src
  induction src with
  | nil => intro tgt; simp [missingFrom]
  | cons t rest ih =>
    intro tgt
    by_cases hm : t ∈ tgt
    · rw [missingFrom, if_pos hm, ih (tgt.erase t)]
      by_cases hx : x = t
      · subst hx
        have h1 : 1 ≤ tgt.count x := List.count_pos_iff.mpr hm
        rw [List.count_erase_self]
        simp [List.count_cons]
        omega
      · rw [List.count_erase_of_ne hx]
        have ht : (t == x) = false := by simpa using fun hh => hx hh.symm
        simp [List.count_cons, ht]
    · rw [missingFrom, if_neg hm]
      by_cases hx : x = t
      · subst hx
        have h0 : tgt.count x = 0 := List.count_eq_zero.mpr hm
        rw [List.count_cons_self]
        simp [List.count_cons, h0, ih tgt]
      · have ht : (t == x) = false := by simpa using fun hh => hx hh.symm
        simp [List.count_cons, ht, ih tgt]

theorem missingFrom_perm (src : List String) :
    ∀ {t₁ t₂ : List String}, t₁.Perm t₂ → missingFrom src t₁ = missingFrom src t₂ := by
  induction src with
  | nil => intro t₁ t₂ _; rfl
  | cons t rest ih =>
    intro t₁ t₂ h
    by_cases hm : t ∈ t₁
    · have hm₂ : t ∈ t₂ := h.mem_iff.mp hm
      rw [missingFrom, missingFrom, if_pos hm, if_pos hm₂]
      exact ih (h.erase t)
    · have hm₂ : t ∉ t₂ := fun hh => hm (h.mem_iff.mpr hh)
      rw [missingFrom, missingFrom, if_neg hm, if_neg hm₂, ih h]

/-- Claim C4: `check_missing_tags` implements order-insensitive multiset
matching — the missing list carries one occurrence of `x` per deficit of `x`
in the translation (so extra translation tags are never flagged), permuting
the translation's tags never changes the result, and the three quoted example
evaluations hold. -/
theorem C4_missing_multiset :
    (∀ (src tgt : List String) (x : String),
        (missingFrom src tgt).count x = src.count x - tgt.count x)
    ∧ (∀ (src t₁ t₂ : List String), t₁.Perm t₂ → missingFrom src t₁ = missingFrom src t₂)
    ∧ (∀ (src tgt : List String) (x : String),
        src.count x ≤ tgt.count x → x ∉ missingFrom src tgt)
    ∧ check_missing_tags "<b>{1}</b>" "{1}" = ["<b>", "</b>"]
    ∧ check_missing_tags "<b>x</b>" "<b>x</b><b>y</b>" = []
    ∧ check_missing_tags "{1}{1}" "{1}" = ["{1}"] := by
  refine ⟨fun src tgt x => missingFrom_count x src tgt,
          fun src t₁ t₂ h => missingFrom_perm src h,
          fun src tgt x hle => ?_, by decide, by decide, by decide⟩
  have hc : (missingFrom src tgt).count x = 0 := by
    rw [missingFrom_count x src tgt]
    omega
  exact List.count_eq_zero.mp hc

/-- Witness for C4 at concrete inputs: a permuted translation gives the same
missing list, and a surplus tag is never flagged. -/
theorem C4_witness :
    missingFrom ["<b>", "</b>"] ["</b>", "<b>"] = missingFrom ["<b>", "</b>"] ["<b>", "</b>"]
    ∧ "{1}" ∉ missingFrom ["{1}"] ["{1}", "{1}"] := by
  constructor
  · exact C4_missing_multiset.2.1 ["<b>", "</b>"] ["</b>", "<b>"] ["<b>", "</b>"] (by decide)
  · exact C4_missing_multiset.2.2.1 ["{1}"] ["{1}", "{1}"] "{1}" (by decide)

/-! ### Renderer lemmas — tag-name derivation -/

theorem dropWhile_head_false {p : Char → Bool} {l : List Char} {c : Char} {cs : List Char}
    (h : l.dropWhile p = c :: cs) : p c = false := by
  induction l with
  | nil => simp at h
  | cons x xs ih =>
    by_cases hx : p x
    · rw [List.dropWhile_cons, if_pos hx] at h
      exact ih h
    · rw [List.dropWhile_cons, if_neg hx] at h
      obtain ⟨rfl, -⟩ := List.cons.injEq _ _ _ _ ▸ h
      simpa using hx

theorem dropWhile_eq_self_of_head {p : Char → Bool} {l : List Char}
    (h : ∀ c cs, l = c :: cs → p c = false) : l.dropWhile p = l := by
  cases l with
  | nil => rfl
  | cons x xs => rw [List.dropWhile_cons, if_neg (by simp [h x xs rfl])]

theorem dropWhile_idem (p : Char → Bool) (l : List Char) :
    (l.dropWhile p).dropWhile p = l.dropWhile p := by
  apply dropWhile_eq_self_of_head
  intro c cs h
  exact dropWhile_head_false h

theorem pyDropTrailing_getLast {p : Char → Bool} {l : List Char} {c : Char}
    (h : (pyDropTrailing p l).getLast? = some c) : p c = false := by
  rw [pyDropTrailing, List.getLast?_reverse] at h
  cases hm : l.reverse.dropWhile p with
  | nil => rw [hm] at h; simp at h
  | cons y ys =>
    rw [hm] at h
    obtain rfl : y = c := by simpa using h
    exact dropWhile_head_false hm

theorem pyDropTrailing_prefix_of (p : Char → Bool) (l : List Char) :
    pyDropTrailing p l <+: l := by
  rw [pyDropTrailing]
  exact List.reverse_suffix.mp (by simpa using List.dropWhile_suffix (l := l.reverse) p)

theorem pyDropTrailing_eq_self {p : Char → Bool} {l : List Char}
    (h : ∀ c, l.getLast? = some c → p c = false) : pyDropTrailing p l = l := by
  rw [pyDropTrailing, dropWhile_eq_self_of_head, List.reverse_reverse]
  intro c cs hrev
  apply h
  rw [← List.head?_reverse, hrev]
  rfl

theorem dropWhile_append_singleton {p : Char → Bool} {c : Char} (hc : p c = false) :
    ∀ l : List Char, (l ++ [c]).dropWhile p = l.dropWhile p ++ [c] := by
  intro l
  induction l with
  | nil => simp [List.dropWhile_cons, hc]
  | cons x xs ih =>
    by_cases hx : p x
    · simpa [List.dropWhile_cons, hx] using ih
    · simp [List.dropWhile_cons, hx]

theorem pyDropTrailing_cons {p : Char → Bool} {c : Char} (hc : p c = false) (l : List Char) :
    pyDropTrailing p (c :: l) = c :: pyDropTrailing p l := by
  rw [pyDropTrailing, pyDropTrailing, List.reverse_cons, dropWhile_append_singleton hc,
    List.reverse_append]
  rfl

theorem deriveName_getLast {p nm : List Char} (h : deriveName p = some nm) :
    nm.getLast? ≠ some '/' := by
  intro hlast
  rw [deriveName] at h
  cases hm : (stripAngles p).dropWhile isPySpace with
  | nil => rw [hm] at h; simp at h
  | cons c cs =>
    rw [hm] at h
    obtain rfl := Option.some.inj h
    have := pyDropTrailing_getLast hlast
    simp at this

/-- A token matching the brace or square-bracket shape derives a name that
starts with its opening bracket: the opening bracket is not stripped, is not
whitespace, survives lowercasing, and is not a trailing slash. -/
theorem shapeMatch_deriveName {o cl : Char} (ho1 : isStripChar o = false)
    (ho2 : isPySpace o = false) (ho3 : o.toLower = o) (ho4 : o ≠ '/')
    (hcl : isStripChar cl = false) :
    ∀ p : List Char, shapeMatch o cl p = true → ∃ t, deriveName p = some (o :: t) := by
  intro p h
  cases p with
  | nil => simp [shapeMatch] at h
  | cons x xs =>
    simp only [shapeMatch, Bool.and_eq_true, decide_eq_true_eq] at h
    obtain ⟨⟨⟨hxo, hlen⟩, hlast⟩, -⟩ := h
    subst hxo
    have hplast : (x :: xs).getLast? = some cl := by
      cases xs with
      | nil => simp at hlen
      | cons y ys => rw [List.getLast?_cons_cons]; exact hlast
    have hstrip : stripAngles (x :: xs) = x :: xs := by
      rw [stripAngles, dropWhile_eq_self_of_head, pyDropTrailing_eq_self]
      · intro c hc
        obtain rfl : c = cl := by rw [hplast] at hc; exact (Option.some.inj hc).symm
        exact hcl
      · intro c cs hcons
        obtain ⟨rfl, -⟩ := List.cons.injEq _ _ _ _ ▸ hcons
        exact ho1
    have hdrop : (x :: xs).dropWhile isPySpace = x :: xs := by
      rw [List.dropWhile_cons, if_neg (by simp [ho2])]
    refine ⟨pyDropTrailing (fun ch => ch = '/')
      ((xs.takeWhile (fun ch => !isPySpace ch)).map Char.toLower), ?_⟩
    rw [deriveName, hstrip, hdrop]
    have htake : (x :: xs).takeWhile (fun ch => !isPySpace ch) =
        x :: xs.takeWhile (fun ch => !isPySpace ch) := by
      rw [List.takeWhile_cons, if_pos (by simp [ho2])]
    simp only [htake, List.map_cons, ho3]
    rw [pyDropTrailing_cons (by simp [ho4])]

theorem renderPart_erase_br (p : List Char) :
    renderPart RENDER_TAGS p = renderPart (RENDER_TAGS.erase "br/") p := by
  by_cases htag : isTagToken p = true
  · simp only [renderPart, htag, if_true]
    cases hd : deriveName p with
    | none => rfl
    | some nm =>
      have hne : String.mk nm ≠ "br/" := by
        intro heq
        have hdata : nm = "br/".data := congrArg String.data heq
        exact deriveName_getLast hd (by rw [hdata]; rfl)
      simp only [List.mem_erase_of_ne hne]
  · simp [renderPart, htag]

theorem renderParts_congr {w₁ w₂ : List String}
    (h : ∀ p : List Char, renderPart w₁ p = renderPart w₂ p) :
    ∀ parts : List (List Char), renderParts w₁ parts = renderParts w₂ parts := by
  intro parts
  induction parts with
  | nil => rfl
  | cons p rest ih => rw [renderParts, renderParts, h p, ih]

/-! ### Claim C10 — the whitelist entry ending in a slash is unreachable -/

/-- Claim C10: the derived tag name never ends with a slash (the final
`rstrip` guarantees it), so the `"br/"` entry of `RENDER_TAGS` is unreachable:
`render_translation_html` is extensionally equal to the same renderer with
`"br/"` removed from the whitelist. -/
theorem C10_br_slash_unreachable :
    (∀ p nm : List Char, deriveName p = some nm → nm.getLast? ≠ some '/')
    ∧ (∀ s : String, render_translation_html s = renderWith (RENDER_TAGS.erase "br/") s) := by
  refine ⟨fun p nm h => deriveName_getLast h, fun s => ?_⟩
  rw [render_translation_html, renderWith, renderWith,
    renderParts_congr renderPart_erase_br (splitParts s.data)]

/-- Witness for C10: the name derived from the line-break token is `br` (not
`br/`), and the renderer agrees with the pruned whitelist on a concrete
input containing that token. -/
theorem C10_witness :
    "br".data.getLast? ≠ some '/'
    ∧ render_translation_html "a <br/> b" = renderWith (RENDER_TAGS.erase "br/") "a <br/> b" :=
  ⟨C10_br_slash_unreachable.1 "<br/>".data "br".data (by decide),
   C10_br_slash_unreachable.2 "a <br/> b"⟩

/-! ### Claim C5 — renderer dispatch -/

/-- Counterexample to claim C5 as stated: `</>` is a tag token that is not
emitted verbatim and whose derived name is not in the whitelist (it has no
derivable name at all), yet it is not chip-wrapped either — the renderer
raises instead of producing any output for it. -/
theorem C5_cex_unnamed_token :
    isTagToken "</>".data = true
    ∧ renderPart RENDER_TAGS "</>".data = none
    ∧ renderPart RENDER_TAGS "</>".data ≠ some (chipWrap "</>".data) := by
  decide

/-- Claim C5 as amended: for every tag token whose name derivation is defined,
the token is emitted verbatim iff the derived name is in `RENDER_TAGS`, and is
chip-wrapped and escaped otherwise; plain text is always escaped; curly-brace
and square-bracket tokens derive a name starting with their opening bracket,
which is never whitelisted, so they always render as inert chips; the quoted
name derivations (`<br/>` to `br`, `</B>` to `b`) and renderings hold.  A tag
token whose stripped content is all whitespace has no derived name and makes
the renderer raise instead of chip-wrapping — see the counterexample. -/
theorem C5_render_whitelist :
    (∀ p nm : List Char, isTagToken p = true → deriveName p = some nm →
        renderPart RENDER_TAGS p = some (if String.mk nm ∈ RENDER_TAGS then p else chipWrap p))
    ∧ (∀ p : List Char, isTagToken p = false → renderPart RENDER_TAGS p = some (escapeList p))
    ∧ (∀ p : List Char, shapeMatch '{' '}' p = true →
        renderPart RENDER_TAGS p = some (chipWrap p))
    ∧ (∀ p : List Char, shapeMatch '[' ']' p = true →
        renderPart RENDER_TAGS p = some (chipWrap p))
    ∧ deriveName "<br/>".data = some "br".data
    ∧ deriveName "</B>".data = some "b".data
    ∧ render_translation_html "<b>hi</b>" = some "<b>hi</b>"
    ∧ render_translation_html "[x]" = some (String.mk (chipWrap "[x]".data)) := by
  have hbrace : ∀ p : List Char, shapeMatch '{' '}' p = true →
      renderPart RENDER_TAGS p = some (chipWrap p) := by
    intro p h
    have htag : isTagToken p = true := by simp [isTagToken, h]
    obtain ⟨t, hd⟩ :=
      shapeMatch_deriveName (by decide) (by decide) (by decide) (by decide) (by decide) p h
    have hnot : String.mk ('{' :: t) ∉ RENDER_TAGS := by
      intro hmem
      have hAll : ∀ s ∈ RENDER_TAGS, s.data.head? ≠ some '{' := by decide
      exact hAll _ hmem rfl
    simp [renderPart, htag, hd, hnot]
  have hsquare : ∀ p : List Char, shapeMatch '[' ']' p = true →
      renderPart RENDER_TAGS p = some (chipWrap p) := by
    intro p h
    have htag : isTagToken p = true := by simp [isTagToken, h]
    obtain ⟨t, hd⟩ :=
      shapeMatch_deriveName (by decide) (by decide) (by decide) (by decide) (by decide) p h
    have hnot : String.mk ('[' :: t) ∉ RENDER_TAGS := by
      intro hmem
      have hAll : ∀ s ∈ RENDER_TAGS, s.data.head? ≠ some '[' := by decide
      exact hAll _ hmem rfl
    simp [renderPart, htag, hd, hnot]
  refine ⟨?_, ?_, hbrace, hsquare, by decide, by decide, by decide, by decide⟩
  · intro p nm htag hd
    simp [renderPart, htag, hd]
  · intro p htag
    simp [renderPart, htag]

/-- Witness for C5 at concrete tokens: a whitelisted angle token renders
verbatim, plain text is escaped, brace and square tokens are chips. -/
theorem C5_witness :
    renderPart RENDER_TAGS "<b>".data
        = some (if String.mk "b".data ∈ RENDER_TAGS then "<b>".data else chipWrap "<b>".data)
    ∧ renderPart RENDER_TAGS "x y".data = some (escapeList "x y".data)
    ∧ renderPart RENDER_TAGS "{1}".data = some (chipWrap "{1}".data)
    ∧ renderPart RENDER_TAGS "[x]".data = some (chipWrap "[x]".data) :=
  ⟨C5_render_whitelist.1 "<b>".data "b".data (by decide) (by decide),
   C5_render_whitelist.2.1 "x y".data (by decide),
   C5_render_whitelist.2.2.1 "{1}".data (by decide),
   C5_render_whitelist.2.2.2.1 "[x]".data (by decide)⟩

/-! ### Claim C8 — confirmation operations -/

theorem confirmFold_get? (tr : List (Nat × String)) :
    ∀ (l : List Nat) (d : List (Nat × Bool)) (j : Nat),
      dictGet? (l.foldl (fun acc i =>
          if pyStrip (dictGetD tr i "").data ≠ [] then dictInsert acc i true else acc) d) j =
        if j ∈ l ∧ pyStrip (dictGetD tr j "").data ≠ [] then some true else dictGet? d j := by
  intro l
  induction l with
  | nil => intro d j; simp
  | cons i l ih =>
    intro d j
    rw [List.foldl_cons, ih]
    by_cases hmem : j ∈ l ∧ pyStrip (dictGetD tr j "").data ≠ []
    · simp [hmem, hmem.1, hmem.2]
    · rw [if_neg hmem]
      by_cases hji : j = i ∧ pyStrip (dictGetD tr j "").data ≠ []
      · obtain ⟨rfl, hcj⟩ := hji
        rw [if_pos hcj, dictGet?_insert_self, if_pos ⟨List.mem_cons_self j l, hcj⟩]
      · have hrhs : ¬ (j ∈ i :: l ∧ pyStrip (dictGetD tr j "").data ≠ []) := by
          intro hx
          rcases List.mem_cons.mp hx.1 with h1 | h1
          · exact hji ⟨h1, hx.2⟩
          · exact hmem ⟨h1, hx.2⟩
        rw [if_neg hrhs]
        by_cases hci : pyStrip (dictGetD tr i "").data ≠ []
        · have hne : j ≠ i := by
            intro hx
            exact hji ⟨hx, by rw [hx]; exact hci⟩
          rw [if_pos hci, dictGet?_insert_ne _ _ _ _ hne]
        · rw [if_neg hci]

theorem confirmFold_noop (tr : List (Nat × String)) :
    ∀ (l : List Nat) (d : List (Nat × Bool)),
      (∀ i ∈ l, pyStrip (dictGetD tr i "").data ≠ [] → dictGet? d i = some true) →
      l.foldl (fun acc i =>
          if pyStrip (dictGetD tr i "").data ≠ [] then dictInsert acc i true else acc) d = d := by
  intro l
  induction l with
  | nil => intro d _; rfl
  | cons i l ih =>
    intro d h
    rw [List.foldl_cons]
    have hstep : (if pyStrip (dictGetD tr i "").data ≠ [] then dictInsert d i true else d) = d := by
      by_cases hci : pyStrip (dictGetD tr i "").data ≠ []
      · rw [if_pos hci, dictInsert_same d i true (h i (List.mem_cons_self i l) hci)]
      · rw [if_neg hci]
    rw [hstep]
    exact ih d (fun k hk hck => h k (List.mem_cons_of_mem i hk) hck)

/-- Claim C8: `confirm_active` (toggleConfirm on the active segment) is a
no-op when the trimmed translation is empty and otherwise flips exactly the
active segment's confirmed flag; `confirm_all` confirms exactly the segments
with non-blank translations, leaves blank ones untouched, never unconfirms,
and is idempotent; neither operation touches segments or translations. -/
theorem C8_confirm_ops :
    (∀ st : AppState, pyStrip (dictGetD st.translations st.active_seg "").data = [] →
        confirmActive st = st)
    ∧ (∀ st : AppState, pyStrip (dictGetD st.translations st.active_seg "").data ≠ [] →
        (confirmActive st).segments = st.segments
        ∧ (confirmActive st).translations = st.translations
        ∧ (confirmActive st).active_seg = st.active_seg
        ∧ dictGetD (confirmActive st).confirmed st.active_seg false
            = !(dictGetD st.confirmed st.active_seg false)
        ∧ ∀ j, j ≠ st.active_seg →
            dictGet? (confirmActive st).confirmed j = dictGet? st.confirmed j)
    ∧ (∀ (st : AppState) (i : Nat), i < st.segments.length →
        pyStrip (dictGetD st.translations i "").data ≠ [] →
        dictGetD (confirmAll st).confirmed i false = true)
    ∧ (∀ (st : AppState) (i : Nat), pyStrip (dictGetD st.translations i "").data = [] →
        dictGet? (confirmAll st).confirmed i = dictGet? st.confirmed i)
    ∧ (∀ (st : AppState) (i : Nat), dictGetD st.confirmed i false = true →
        dictGetD (confirmAll st).confirmed i false = true)
    ∧ (∀ st : AppState, confirmAll (confirmAll st) = confirmAll st)
    ∧ (∀ st : AppState, (confirmAll st).segments = st.segments
        ∧ (confirmAll st).translations = st.translations
        ∧ (confirmAll st).active_seg = st.active_seg) := by
  have hCA : ∀ st : AppState, pyStrip (dictGetD st.translations st.active_seg "").data ≠ [] →
      confirmActive st = { st with confirmed := dictInsert st.confirmed st.active_seg (!(dictGetD st.confirmed st.active_seg false)) } := by
    intro st h
    rw [confirmActive, if_pos h]
  have hconf : ∀ st : AppState, (confirmAll st).confirmed =
      (List.range st.segments.length).foldl (fun acc i =>
        if pyStrip (dictGetD st.translations i "").data ≠ [] then dictInsert acc i true else acc)
        st.confirmed := fun _ => rfl
  have hget : ∀ (st : AppState) (i : Nat),
      dictGet? (confirmAll st).confirmed i =
        if i ∈ List.range st.segments.length ∧ pyStrip (dictGetD st.translations i "").data ≠ []
        then some true else dictGet? st.confirmed i := by
    intro st i
    rw [hconf st]
    exact confirmFold_get? st.translations (List.range st.segments.length) st.confirmed i
  refine ⟨?_, ?_, ?_, ?_, ?_, ?_, fun st => ⟨rfl, rfl, rfl⟩⟩
  · intro st h
    rw [confirmActive, if_neg (by simpa using h)]
  · intro st h
    rw [hCA st h]
    refine ⟨rfl, rfl, rfl, ?_, ?_⟩
    · show (dictGet? (dictInsert st.confirmed st.active_seg
          (!(dictGetD st.confirmed st.active_seg false))) st.active_seg).getD false = _
      rw [dictGet?_insert_self]
      rfl
    · intro j hj
      exact dictGet?_insert_ne _ _ _ _ hj
  · intro st i hi hci
    show (dictGet? (confirmAll st).confirmed i).getD false = true
    rw [hget st i, if_pos ⟨List.mem_range.mpr hi, hci⟩]
    rfl
  · intro st i hci
    rw [hget st i, if_neg (by simp [hci])]
  · intro st i hci
    show (dictGet? (confirmAll st).confirmed i).getD false = true
    rw [hget st i]
    by_cases hc : i ∈ List.range st.segments.length ∧
        pyStrip (dictGetD st.translations i "").data ≠ []
    · rw [if_pos hc]; rfl
    · rw [if_neg hc]
      exact hci
  · intro st
    have h1 : confirmAll (confirmAll st) = { confirmAll st with confirmed := (List.range st.segments.length).foldl (fun acc i => if pyStrip (dictGetD st.translations i "").data ≠ [] then dictInsert acc i true else acc) ((confirmAll st).confirmed) } := rfl
    rw [h1, confirmFold_noop st.translations (List.range st.segments.length)
      ((confirmAll st).confirmed) ?_]
    · intro i hi hci
      rw [hget st i, if_pos ⟨hi, hci⟩]

/-- Witness for C8 at concrete states: toggling a non-blank unconfirmed
segment confirms it, `confirm_all` confirms it, and toggling a blank
segment is a no-op. -/
theorem C8_witness :
    dictGetD (confirmActive ⟨["s."], [(0, "hi")], [], 0⟩).confirmed 0 false = true
    ∧ dictGetD (confirmAll ⟨["s."], [(0, "hi")], [], 0⟩).confirmed 0 false = true
    ∧ confirmActive ⟨["s."], [(0, "  ")], [], 0⟩ = ⟨["s."], [(0, "  ")], [], 0⟩ := by
  refine ⟨?_, C8_confirm_ops.2.2.1 ⟨["s."], [(0, "hi")], [], 0⟩ 0 (by decide) (by decide),
          C8_confirm_ops.1 ⟨["s."], [(0, "  ")], [], 0⟩ (by decide)⟩
  have h := (C8_confirm_ops.2.1 ⟨["s."], [(0, "hi")], [], 0⟩ (by decide)).2.2.2.1
  exact h.trans (by decide)

/-! ### Claims C1 and C2 — reload carry-over and confirmed-segment guard -/

theorem dictGetD_insert_self {α : Type} (d : List (Nat × α)) (k : Nat) (v dflt : α) :
    dictGetD (dictInsert d k v) k dflt = v := by
  show (dictGet? _ _).getD _ = _
  rw [dictGet?_insert_self]
  rfl

theorem dictGetD_insert_ne {α : Type} (d : List (Nat × α)) (k j : Nat) (v dflt : α)
    (h : j ≠ k) : dictGetD (dictInsert d k v) j dflt = dictGetD d j dflt := by
  show (dictGet? _ _).getD _ = _
  rw [dictGet?_insert_ne _ _ _ _ h]
  rfl

/-- Counterexample to claim C1 as stated: load a two-segment document,
translate and confirm segment 1, reload with a one-segment document, then
reload with a two-segment document.  The stale dict entries were never
dropped, so for the last pair of consecutive non-blank loads (old count 1,
new count 2) the "new" index 1 resurfaces with its old text `"X"` and still
confirmed — contradicting "indices at or beyond the new count are dropped (a
later reload cannot resurrect them)", "new indices start with empty text and
confirmed=false", and "no index beyond the old count is ever confirmed". -/
theorem C1_cex_resurrected_entry :
    (segment_text "C.").length = 1
    ∧ (segment_text "D.\n\nE.").length = 2
    ∧ dictGetD (loadSource "D.\n\nE." (loadSource "C." (confirmActive (setActive 1 (setTranslation 1 "X" (loadSource "A.\n\nB." initState)))))).translations 1 "" = "X"
    ∧ dictGetD (loadSource "D.\n\nE." (loadSource "C." (confirmActive (setActive 1 (setTranslation 1 "X" (loadSource "A.\n\nB." initState)))))).confirmed 1 false = true := by
  decide

/-- Claim C1 as amended: a non-blank load replaces the segments and resets the
active index, and carries state over by `setdefault`: every index already
present in the `translations` / `confirmed` dicts keeps its old value — even
indices at or beyond the new count, whose entries are retained invisibly and
resurface on a later larger reload — while indices below the new count that
were never present before are initialised to the empty string / `false`. -/
theorem C1_reload_setdefault :
    ∀ (st : AppState) (raw : String), pyStrip raw.data ≠ [] →
      (loadSource raw st).segments = segment_text raw
      ∧ (loadSource raw st).active_seg = 0
      ∧ (∀ i, dictGet? (loadSource raw st).translations i =
          if (dictGet? st.translations i).isSome then dictGet? st.translations i
          else if i < (segment_text raw).length then some "" else none)
      ∧ (∀ i, dictGet? (loadSource raw st).confirmed i =
          if (dictGet? st.confirmed i).isSome then dictGet? st.confirmed i
          else if i < (segment_text raw).length then some false else none) := by
  intro st raw h
  have hload : loadSource raw st = { segments := segment_text raw, translations := setdefaultRange st.translations (segment_text raw).length "", confirmed := setdefaultRange st.confirmed (segment_text raw).length false, active_seg := 0 } := by
    rw [loadSource, if_pos h]
  rw [hload]
  exact ⟨rfl, rfl, fun i => dictGet?_setdefaultRange _ _ _ i,
         fun i => dictGet?_setdefaultRange _ _ _ i⟩

/-- Witness for C1 at a concrete load over the fresh session: the single new
index starts empty and unconfirmed. -/
theorem C1_witness :
    dictGet? (loadSource "Hi." initState).translations 0 = some ""
    ∧ dictGet? (loadSource "Hi." initState).confirmed 0 = some false := by
  constructor
  · exact ((C1_reload_setdefault initState "Hi." (by decide)).2.2.1 0).trans (by decide)
  · exact ((C1_reload_setdefault initState "Hi." (by decide)).2.2.2 0).trans (by decide)

/-- Counterexample to claim C2 as stated: in a reachable session (load a
document, type a translation, confirm it), the `insert_tag` toolbar action
appends to the active segment's translation even though that segment is
confirmed, changing its text from `"Hi"` to `"Hi<b></b>"`. -/
theorem C2_cex_insert_into_confirmed :
    dictGetD (confirmActive (setTranslation 0 "Hi" (loadSource "Hola." initState))).confirmed 0 false = true
    ∧ dictGetD (confirmActive (setTranslation 0 "Hi" (loadSource "Hola." initState))).translations 0 "" = "Hi"
    ∧ dictGetD (insertTag "<b>" "</b>" (confirmActive (setTranslation 0 "Hi" (loadSource "Hola." initState)))).translations 0 "" = "Hi<b></b>" := by
  decide

/-- Claim C2 as amended: only `setTranslation` respects the confirmed flag —
the editor widget is disabled for a confirmed segment, so the write-back
preserves every translation lookup — while the `insert_tag` and `copy_source`
toolbar actions append to the active segment's translation unconditionally,
confirmed or not. -/
theorem C2_confirmed_guard :
    (∀ (st : AppState) (i : Nat) (text : String), dictGetD st.confirmed i false = true →
        ∀ j, dictGetD (setTranslation i text st).translations j "" =
          dictGetD st.translations j "")
    ∧ (∀ (st : AppState) (i : Nat) (text : String), dictGetD st.confirmed i false = false →
        dictGetD (setTranslation i text st).translations i "" = text)
    ∧ (∀ (st : AppState) (openTag closeTag : String),
        dictGetD (insertTag openTag closeTag st).translations st.active_seg ""
          = dictGetD st.translations st.active_seg "" ++ openTag ++ closeTag)
    ∧ (∀ (st st' : AppState) (seg : String), st.segments.get? st.active_seg = some seg →
        copySource st = some st' →
        dictGetD st'.translations st.active_seg ""
          = dictGetD st.translations st.active_seg "" ++ String.join (extract_tags seg)) := by
  refine ⟨?_, ?_, ?_, ?_⟩
  · intro st i text h j
    have ht : (setTranslation i text st).translations = dictInsert st.translations i (if dictGetD st.confirmed i false then dictGetD st.translations i "" else text) := rfl
    rw [ht, h, if_pos rfl]
    by_cases hji : j = i
    · subst hji
      exact dictGetD_insert_self _ _ _ _
    · exact dictGetD_insert_ne _ _ _ _ _ hji
  · intro st i text h
    have ht : (setTranslation i text st).translations = dictInsert st.translations i (if dictGetD st.confirmed i false then dictGetD st.translations i "" else text) := rfl
    rw [ht, h]
    simp only [Bool.false_eq_true, if_false]
    exact dictGetD_insert_self _ _ _ _
  · intro st openTag closeTag
    exact dictGetD_insert_self _ _ _ _
  · intro st st' seg hseg hcopy
    simp only [copySource, hseg] at hcopy
    obtain rfl := (Option.some.inj hcopy).symm
    exact dictGetD_insert_self _ _ _ _

/-- Witness for C2 at concrete states: writing through the disabled editor of
a confirmed segment leaves its text, and `insert_tag` appends to it. -/
theorem C2_witness :
    dictGetD (setTranslation 0 "ZZ" ⟨["s."], [(0, "hi")], [(0, true)], 0⟩).translations 0 "" = "hi"
    ∧ dictGetD (insertTag "<b>" "</b>" ⟨["s."], [(0, "hi")], [(0, true)], 0⟩).translations 0 "" = "hi<b></b>" := by
  constructor
  · exact (C2_confirmed_guard.1 ⟨["s."], [(0, "hi")], [(0, true)], 0⟩ 0 "ZZ" (by decide) 0).trans
      (by decide)
  · exact (C2_confirmed_guard.2.2.1 ⟨["s."], [(0, "hi")], [(0, true)], 0⟩ "<b>" "</b>").trans
      (by decide)

/-! ### Claim C7 — segmenter lemmas -/

theorem mem_dropWhile_of_not {p : Char → Bool} {l : List Char} {c : Char}
    (hc : p c = false) (h : c ∈ l) : c ∈ l.dropWhile p := by
  induction l with
  | nil => simp at h
  | cons x xs ih =>
    by_cases hx : p x
    · rw [List.dropWhile_cons, if_pos hx]
      rcases List.mem_cons.mp h with rfl | hmem
      · rw [hx] at hc; exact absurd hc (by simp)
      · exact ih hmem
    · rw [List.dropWhile_cons, if_neg hx]
      exact h

theorem mem_pyDropTrailing_of_not {p : Char → Bool} {l : List Char} {c : Char}
    (hc : p c = false) (h : c ∈ l) : c ∈ pyDropTrailing p l := by
  rw [pyDropTrailing, List.mem_reverse]
  exact mem_dropWhile_of_not hc (List.mem_reverse.mpr h)

theorem mem_pyStrip_of_not {l : List Char} {c : Char}
    (hc : isPySpace c = false) (h : c ∈ l) : c ∈ pyStrip l :=
  mem_pyDropTrailing_of_not hc (mem_dropWhile_of_not hc h)

theorem pyDropTrailing_subset {p : Char → Bool} {l : List Char} : pyDropTrailing p l ⊆ l :=
  (pyDropTrailing_prefix_of p l).subset

theorem pyStrip_subset {l : List Char} : pyStrip l ⊆ l :=
  fun _ h => (List.dropWhile_sublist isPySpace).subset (pyDropTrailing_subset h)

theorem pyStrip_head {l : List Char} {c : Char} {cs : List Char}
    (h : pyStrip l = c :: cs) : isPySpace c = false ∧ c ∈ l := by
  have hpre : pyStrip l <+: l.dropWhile isPySpace :=
    pyDropTrailing_prefix_of isPySpace (l.dropWhile isPySpace)
  rw [h] at hpre
  obtain ⟨t, ht⟩ := hpre
  have hfalse : isPySpace c = false :=
    dropWhile_head_false (show l.dropWhile isPySpace = c :: (cs ++ t) by
      rw [← ht]; exact List.cons_append c cs t)
  refine ⟨hfalse, ?_⟩
  have hcm : c ∈ pyStrip l := by rw [h]; exact List.mem_cons_self c cs
  exact pyStrip_subset hcm

theorem pyStrip_idem (l : List Char) : pyStrip (pyStrip l) = pyStrip l := by
  have hA : (pyStrip l).dropWhile isPySpace = pyStrip l := by
    apply dropWhile_eq_self_of_head
    intro c cs h
    exact (pyStrip_head h).1
  have hB : pyDropTrailing isPySpace (pyStrip l) = pyStrip l := by
    simp [pyStrip, pyDropTrailing, dropWhile_idem]
  calc pyStrip (pyStrip l) = pyDropTrailing isPySpace ((pyStrip l).dropWhile isPySpace) := rfl
  _ = pyDropTrailing isPySpace (pyStrip l) := by rw [hA]
  _ = pyStrip l := hB

theorem pyStrip_nonblank {l : List Char} (h : pyStrip l ≠ []) :
    ∃ c, isPySpace c = false ∧ c ∈ l ∧ c ∈ pyStrip l := by
  cases hq : pyStrip l with
  | nil => exact absurd hq h
  | cons c cs =>
    obtain ⟨hc, hcl⟩ := pyStrip_head hq
    exact ⟨c, hc, hcl, hq ▸ List.mem_cons_self c cs⟩

theorem lastIdxOf_lt_length {c : Char} :
    ∀ {l : List Char} {j : Nat}, lastIdxOf c l = some j → j < l.length := by
  intro l
  induction l with
  | nil => intro j h; simp [lastIdxOf] at h
  | cons x xs ih =>
    intro j h
    rw [lastIdxOf] at h
    cases hx : lastIdxOf c xs with
    | some j' =>
      rw [hx] at h
      obtain rfl := (Option.some.inj h).symm
      have := ih hx
      simp only [List.length_cons]
      omega
    | none =>
      rw [hx] at h
      by_cases hxc : x = c
      · rw [if_pos hxc] at h
        obtain rfl := (Option.some.inj h).symm
        simp
      · rw [if_neg hxc] at h
        exact absurd h (by simp)

theorem lastIdxOf_split {c : Char} :
    ∀ {l : List Char} {j : Nat}, lastIdxOf c l = some j →
      l.take j ++ c :: l.drop (j + 1) = l := by
  intro l
  induction l with
  | nil => intro j h; simp [lastIdxOf] at h
  | cons x xs ih =>
    intro j h
    rw [lastIdxOf] at h
    cases hx : lastIdxOf c xs with
    | some j' =>
      rw [hx] at h
      obtain rfl := (Option.some.inj h).symm
      simpa using ih hx
    | none =>
      rw [hx] at h
      by_cases hxc : x = c
      · rw [if_pos hxc] at h
        obtain rfl := (Option.some.inj h).symm
        simp [hxc]
      · rw [if_neg hxc] at h
        exact absurd h (by simp)

theorem mem_take_of_lt_takeWhile {xs : List Char} {j : Nat} {c : Char}
    (hj : j + 1 ≤ (xs.takeWhile isPySpace).length)
    (h : c ∈ xs.take (j + 1)) : isPySpace c = true := by
  have hsplit := List.takeWhile_append_dropWhile (p := isPySpace) (l := xs)
  rw [← hsplit, List.take_append_eq_append_take] at h
  rcases List.mem_append.mp h with h1 | h1
  · exact List.mem_takeWhile_imp (List.take_subset _ _ h1)
  · rw [Nat.sub_eq_zero_of_le hj, List.take_zero] at h1
    simp at h1

theorem paraGo_coverage {c : Char} (hc : isPySpace c = false) :
    ∀ (fuel : Nat) (acc cs : List Char), (c ∈ acc ∨ c ∈ cs) →
      ∃ part ∈ paraGo fuel acc cs, c ∈ part := by
  intro fuel
  induction fuel with
  | zero =>
    intro acc cs h
    cases cs with
    | nil =>
      refine ⟨acc.reverse, by simp [paraGo], ?_⟩
      rcases h with h | h
      · exact List.mem_reverse.mpr h
      · simp at h
    | cons x xs =>
      refine ⟨acc.reverse ++ x :: xs, by simp [paraGo], ?_⟩
      rcases h with h | h
      · exact List.mem_append.mpr (Or.inl (List.mem_reverse.mpr h))
      · exact List.mem_append.mpr (Or.inr h)
  | succ fuel ih =>
    intro acc cs h
    cases cs with
    | nil =>
      refine ⟨acc.reverse, by simp [paraGo], ?_⟩
      rcases h with h | h
      · exact List.mem_reverse.mpr h
      · simp at h
    | cons x xs =>
      have htrans : c ∈ x :: acc ∨ c ∈ xs := by
        rcases h with h | h
        · exact Or.inl (List.mem_cons_of_mem x h)
        · rcases List.mem_cons.mp h with rfl | hxs
          · exact Or.inl (List.mem_cons_self _ _)
          · exact Or.inr hxs
      simp only [paraGo]
      by_cases hx : x = '\n'
      · rw [if_pos hx]
        cases hli : lastIdxOf '\n' (xs.takeWhile isPySpace) with
        | some j =>
          have hcx : c ≠ x := by
            intro he
            rw [he, hx] at hc
            simp [isPySpace] at hc
          rcases h with h | h
          · exact ⟨acc.reverse, by simp, List.mem_reverse.mpr h⟩
          · rcases List.mem_cons.mp h with rfl | hxs
            · exact absurd rfl hcx
            · have hj := lastIdxOf_lt_length hli
              have hxsplit : c ∈ xs.take (j + 1) ++ xs.drop (j + 1) := by
                rw [List.take_append_drop (j + 1) xs]
                exact hxs
              rcases List.mem_append.mp hxsplit with h1 | h1
              · have := mem_take_of_lt_takeWhile (by omega) h1
                rw [this] at hc
                exact absurd hc (by simp)
              · obtain ⟨part, hp, hcp⟩ := ih [] (xs.drop (j + 1)) (Or.inr h1)
                exact ⟨part, List.mem_cons_of_mem _ hp, hcp⟩
        | none => exact ih (x :: acc) xs htrans
      · rw [if_neg hx]
        exact ih (x :: acc) xs htrans

theorem sentGo_coverage {c : Char} (hc : isPySpace c = false) :
    ∀ (fuel : Nat) (prev : Option Char) (acc cs : List Char), (c ∈ acc ∨ c ∈ cs) →
      ∃ part ∈ sentGo fuel prev acc cs, c ∈ part := by
  intro fuel
  induction fuel with
  | zero =>
    intro prev acc cs h
    cases cs with
    | nil =>
      refine ⟨acc.reverse, by simp [sentGo], ?_⟩
      rcases h with h | h
      · exact List.mem_reverse.mpr h
      · simp at h
    | cons x xs =>
      refine ⟨acc.reverse ++ x :: xs, by simp [sentGo], ?_⟩
      rcases h with h | h
      · exact List.mem_append.mpr (Or.inl (List.mem_reverse.mpr h))
      · exact List.mem_append.mpr (Or.inr h)
  | succ fuel ih =>
    intro prev acc cs h
    cases cs with
    | nil =>
      refine ⟨acc.reverse, by simp [sentGo], ?_⟩
      rcases h with h | h
      · exact List.mem_reverse.mpr h
      · simp at h
    | cons x xs =>
      have htrans : c ∈ x :: acc ∨ c ∈ xs := by
        rcases h with h | h
        · exact Or.inl (List.mem_cons_of_mem x h)
        · rcases List.mem_cons.mp h with rfl | hxs
          · exact Or.inl (List.mem_cons_self _ _)
          · exact Or.inr hxs
      simp only [sentGo]
      by_cases hcond : (isPySpace x && prevPunct prev) = true
      · rw [if_pos hcond]
        have hxsp : isPySpace x = true := (Bool.and_eq_true _ _ ▸ hcond).1
        have hcx : c ≠ x := by
          intro he
          rw [he, hxsp] at hc
          exact absurd hc (by simp)
        rcases h with h | h
        · exact ⟨acc.reverse, by simp, List.mem_reverse.mpr h⟩
        · rcases List.mem_cons.mp h with rfl | hxs
          · exact absurd rfl hcx
          · have hxsplit : c ∈ xs.takeWhile isPySpace ++ xs.dropWhile isPySpace := by
              rw [List.takeWhile_append_dropWhile]
              exact hxs
            rcases List.mem_append.mp hxsplit with h1 | h1
            · have := List.mem_takeWhile_imp h1
              rw [this] at hc
              exact absurd hc (by simp)
            · obtain ⟨part, hp, hcp⟩ := ih none [] (xs.dropWhile isPySpace) (Or.inr h1)
              exact ⟨part, List.mem_cons_of_mem _ hp, hcp⟩
      · rw [if_neg hcond]
        exact ih (some x) (x :: acc) xs htrans

theorem paraGo_no_break :
    ∀ (fuel : Nat) (acc cs : List Char),
      (∀ l₁ ws l₂ : List Char, (∀ ch ∈ ws, isPySpace ch = true) →
        cs ≠ l₁ ++ '\n' :: (ws ++ '\n' :: l₂)) →
      paraGo fuel acc cs = [acc.reverse ++ cs] := by
  intro fuel
  induction fuel with
  | zero =>
    intro acc cs _
    cases cs <;> simp [paraGo]
  | succ fuel ih =>
    intro acc cs h
    cases cs with
    | nil => simp [paraGo]
    | cons x xs =>
      have htail : ∀ l₁ ws l₂ : List Char, (∀ ch ∈ ws, isPySpace ch = true) →
          xs ≠ l₁ ++ '\n' :: (ws ++ '\n' :: l₂) := by
        intro l₁ ws l₂ hws heq
        exact h (x :: l₁) ws l₂ hws (by rw [heq]; rfl)
      simp only [paraGo]
      by_cases hx : x = '\n'
      · rw [if_pos hx]
        cases hli : lastIdxOf '\n' (xs.takeWhile isPySpace) with
        | some j =>
          exfalso
          have hsplit := lastIdxOf_split hli
          have hxs : xs = (xs.takeWhile isPySpace).take j ++
              '\n' :: ((xs.takeWhile isPySpace).drop (j + 1) ++ xs.dropWhile isPySpace) := by
            calc xs = xs.takeWhile isPySpace ++ xs.dropWhile isPySpace :=
                  (List.takeWhile_append_dropWhile _ _).symm
            _ = ((xs.takeWhile isPySpace).take j ++
                  '\n' :: (xs.takeWhile isPySpace).drop (j + 1)) ++ xs.dropWhile isPySpace := by
                  rw [hsplit]
            _ = _ := by simp
          apply h [] ((xs.takeWhile isPySpace).take j)
            ((xs.takeWhile isPySpace).drop (j + 1) ++ xs.dropWhile isPySpace)
            (fun ch hch => List.mem_takeWhile_imp (List.take_subset _ _ hch))
          rw [hx, List.nil_append]
          rw [← hxs]
        | none =>
          rw [ih (x :: acc) xs htail]
          simp
      · rw [if_neg hx]
        rw [ih (x :: acc) xs htail]
        simp

theorem sentGo_no_punct :
    ∀ (fuel : Nat) (prev : Option Char) (acc cs : List Char), prevPunct prev = false →
      (∀ ch ∈ cs, sentPunct ch = false) →
      sentGo fuel prev acc cs = [acc.reverse ++ cs] := by
  intro fuel
  induction fuel with
  | zero =>
    intro prev acc cs _ _
    cases cs <;> simp [sentGo]
  | succ fuel ih =>
    intro prev acc cs hprev hcs
    cases cs with
    | nil => simp [sentGo]
    | cons x xs =>
      simp only [sentGo]
      rw [if_neg (by simp [hprev])]
      rw [ih (some x) (x :: acc) xs (by simpa [prevPunct] using hcs x (List.mem_cons_self _ _))
        (fun ch hch => hcs ch (List.mem_cons_of_mem x hch))]
      simp

theorem sentencesOf_mem {para l : List Char} (h : l ∈ sentencesOf para) :
    pyStrip l = l ∧ l ≠ [] := by
  rw [sentencesOf] at h
  obtain ⟨hmem, hne⟩ := List.mem_filter.mp h
  obtain ⟨cand, hcand, rfl⟩ := List.mem_map.mp hmem
  refine ⟨pyStrip_idem cand, ?_⟩
  simpa using hne

/-- Claim C7: for every non-blank input `segment_text` returns at least one
segment; every returned segment is trimmed and non-empty; a trimmed document
with no paragraph break (no two newlines separated only by whitespace) and no
sentence punctuation yields exactly the trimmed whole input as its single
segment; a paragraph without sentence punctuation yields one segment; and the
quoted example evaluation holds. -/
theorem C7_segmenter :
    (∀ s : String, pyStrip s.data ≠ [] → segment_text s ≠ [])
    ∧ (∀ (s : String) (seg : String), seg ∈ segment_text s →
        pyStrip seg.data = seg.data ∧ seg ≠ "")
    ∧ (∀ s : String,
        (∀ l₁ ws l₂ : List Char, (∀ ch ∈ ws, isPySpace ch = true) →
          pyStrip s.data ≠ l₁ ++ '\n' :: (ws ++ '\n' :: l₂)) →
        (∀ ch ∈ s.data, sentPunct ch = false) →
        pyStrip s.data ≠ [] →
        segment_text s = [String.mk (pyStrip s.data)])
    ∧ (∀ para : List Char, (∀ ch ∈ para, sentPunct ch = false) →
        pyStrip para ≠ [] → sentencesOf para = [pyStrip para])
    ∧ segment_text "A. B?\n\nC!" = ["A.", "B?", "C!"] := by
  have hd : ∀ para : List Char, (∀ ch ∈ para, sentPunct ch = false) →
      pyStrip para ≠ [] → sentencesOf para = [pyStrip para] := by
    intro para hp hne
    rw [sentencesOf, sentSplit,
      sentGo_no_punct (pyStrip para).length none [] (pyStrip para) rfl
        (fun ch hch => hp ch (pyStrip_subset hch))]
    simp only [List.reverse_nil, List.nil_append, List.map_cons, List.map_nil,
      pyStrip_idem para]
    rw [List.filter_cons, if_pos (by simpa using hne)]
    rfl
  refine ⟨?_, ?_, ?_, hd, by decide⟩
  · intro s hne
    obtain ⟨c, hc, _, hcs⟩ := pyStrip_nonblank hne
    obtain ⟨part, hpart, hcpart⟩ :=
      paraGo_coverage hc (pyStrip s.data).length [] (pyStrip s.data) (Or.inr hcs)
    have hcps : c ∈ pyStrip part := mem_pyStrip_of_not hc hcpart
    obtain ⟨cand, hcand, hccand⟩ :=
      sentGo_coverage hc (pyStrip part).length none [] (pyStrip part) (Or.inr hcps)
    have hcstrip : c ∈ pyStrip cand := mem_pyStrip_of_not hc hccand
    have hkept : pyStrip cand ∈ sentencesOf part := by
      rw [sentencesOf]
      refine List.mem_filter.mpr ⟨List.mem_map_of_mem _ hcand, ?_⟩
      simpa using List.ne_nil_of_mem hcstrip
    have hflat : pyStrip cand ∈ ((paraSplit (pyStrip s.data)).map sentencesOf).flatten :=
      List.mem_flatten.mpr ⟨sentencesOf part, List.mem_map_of_mem _ hpart, hkept⟩
    have hfinal : String.mk (pyStrip cand) ∈ segment_text s := by
      rw [segment_text]
      exact List.mem_map_of_mem _ hflat
    exact List.ne_nil_of_mem hfinal
  · intro s seg hmem
    rw [segment_text] at hmem
    obtain ⟨l, hl, rfl⟩ := List.mem_map.mp hmem
    obtain ⟨sents, hsents, hlsents⟩ := List.mem_flatten.mp hl
    obtain ⟨para, _, rfl⟩ := List.mem_map.mp hsents
    obtain ⟨hstrip, hne⟩ := sentencesOf_mem hlsents
    refine ⟨hstrip, ?_⟩
    intro he
    exact hne (congrArg String.data he)
  · intro s hnb hp hne
    have hpara : paraSplit (pyStrip s.data) = [pyStrip s.data] := by
      rw [paraSplit]
      simpa using paraGo_no_break (pyStrip s.data).length [] (pyStrip s.data) hnb
    rw [segment_text, hpara]
    simp only [List.map_cons, List.map_nil, List.flatten_cons, List.flatten_nil,
      List.append_nil]
    rw [hd (pyStrip s.data) (fun ch hch => hp ch (pyStrip_subset hch))
      (by rw [pyStrip_idem]; exact hne)]
    rw [pyStrip_idem]
    rfl

/-- A document containing no newline at all cannot contain a paragraph
break. -/
theorem no_newline_no_break {cs : List Char} (h : '\n' ∉ cs) :
    ∀ l₁ ws l₂ : List Char, (∀ ch ∈ ws, isPySpace ch = true) →
      cs ≠ l₁ ++ '\n' :: (ws ++ '\n' :: l₂) := by
  intro l₁ ws l₂ _ heq
  apply h
  rw [heq]
  exact List.mem_append.mpr (Or.inr (List.mem_cons_self _ _))

/-- Witness for C7 at concrete inputs: a non-blank padded input yields
segments and, having neither paragraph break nor punctuation, yields exactly
its trimmed self; a punctuation-free paragraph yields one candidate. -/
theorem C7_witness :
    segment_text " hi there " ≠ []
    ∧ segment_text " hi there " = [String.mk (pyStrip " hi there ".data)]
    ∧ sentencesOf "hello world".data = [pyStrip "hello world".data] := by
  refine ⟨C7_segmenter.1 " hi there " (by decide), ?_,
    C7_segmenter.2.2.2.1 "hello world".data (by decide) (by decide)⟩
  exact C7_segmenter.2.2.1 " hi there " (no_newline_no_break (by decide)) (by decide) (by decide)
